import Mathlib

/-!
Verification of the local background-removal pipeline of `src/app.py`
(`fallback_mask`, `apply_mask_and_save`, and the model hook inside
`process_local`).

Modelling conventions:
* Images are grids of 8-bit channel values; pixel access is a total
  function on ℕ × ℕ, only indices below the stored height/width are
  meaningful.
* numpy float64 arithmetic (`corners.mean`, `np.linalg.norm`, the
  threshold comparison) is modelled exactly over ℚ.  The Euclidean norm
  comparison `norm > 30` is embedded as the squared comparison
  `30^2 < squared distance`, which is equivalent for a nonnegative
  threshold; the equivalence with `Real.sqrt` is proved where a claim
  speaks of Euclidean distance.
* Python / numpy slice semantics (`arr[a:b]`, negative starts, clamping
  past the array bounds) are translated explicitly.
-/

namespace BgRemove

/-- An RGB image: height, width, and a (total) pixel function giving the
three 8-bit channel values.  Mirrors the `np.array(pil_image.convert('RGB'))`
array of shape `(h, w, 3)` in `fallback_mask` (`app.py` line 113). -/
structure Img where
  h : ℕ
  w : ℕ
  pix : ℕ → ℕ → Fin 3 → ℕ

/-- An RGBA image, as produced by `pil_image.convert('RGBA')`
(`app.py` line 130): channel 3 is alpha. -/
structure ImgA where
  h : ℕ
  w : ℕ
  pix : ℕ → ℕ → Fin 4 → ℕ

/-- A single-channel mask array, as produced by `fallback_mask` or a
model's `predict`. -/
structure Mask where
  h : ℕ
  w : ℕ
  val : ℕ → ℕ → ℕ

/-- `margin = max(5, min(h, w) // 20)` — `app.py` line 115.  `/` on ℕ is
floor division, exactly Python's `//` on nonnegative operands. -/
def margin (img : Img) : ℕ := max 5 (min img.h img.w / 20)

/-- The pixels of the numpy slice `arr[r0:r1, c0:c1].reshape(-1, 3)`
in row-major order (the slice bounds are passed already resolved to
absolute clamped indices, as Python slicing resolves them). -/
def regionPixels (img : Img) (r0 r1 c0 c1 : ℕ) : List (Fin 3 → ℕ) :=
  ((List.range (r1 - r0)).map fun i =>
    (List.range (c1 - c0)).map fun j => img.pix (r0 + i) (c0 + j)).flatten

/-- The `corners` array of `app.py` lines 116-121: the four corner slices
concatenated.  Slice `0:margin` resolves to `[0, min margin n)` and
`-margin:` resolves to `[n - margin, n)` with the start clamped to 0
(ℕ subtraction), exactly Python's rules. -/
def cornerPixels (img : Img) : List (Fin 3 → ℕ) :=
  let m := margin img
  regionPixels img 0 (min m img.h) 0 (min m img.w) ++
  regionPixels img 0 (min m img.h) (img.w - m) img.w ++
  regionPixels img (img.h - m) img.h 0 (min m img.w) ++
  regionPixels img (img.h - m) img.h (img.w - m) img.w

/-- `bg_color = corners.mean(axis=0)` — `app.py` line 122: per-channel
arithmetic mean of the sampled corner pixels (exact rational arithmetic;
ℚ division by a zero length yields 0, which never occurs for h, w ≥ 1). -/
def bg_color (img : Img) : Fin 3 → ℚ := fun c =>
  ((cornerPixels img).map fun p => (p c : ℚ)).sum / ((cornerPixels img).length : ℚ)

/-- Squared Euclidean RGB distance between a pixel and a background color;
`np.linalg.norm(arr - bg_color, axis=2) ^ 2` at one pixel. -/
def dist2 (p : Fin 3 → ℕ) (bg : Fin 3 → ℚ) : ℚ :=
  ∑ c : Fin 3, ((p c : ℚ) - bg c) ^ 2

/-- The mask synthesizer, `app.py` lines 123-125:
`mask = (np.linalg.norm(arr - bg_color, axis=2) > thresh).astype(np.uint8) * 255`.
The comparison `norm > t` is embedded as `t^2 < norm^2` (equivalent for
`t ≥ 0`; the source uses `t = 30.0`). -/
def compute_mask (img : Img) (bg : Fin 3 → ℚ) (t : ℚ) : Mask :=
  ⟨img.h, img.w, fun y x => if t ^ 2 < dist2 (img.pix y x) bg then 255 else 0⟩

/-- `fallback_mask` (`app.py` lines 112-126): heuristic mask at the fixed
threshold 30.0 against the corner-sampled background color. -/
def fallback_mask (img : Img) : Mask := compute_mask img (bg_color img) 30

/-- Background estimator, worded as the specification states it
(spec §4.1): margin `m = max(5, ⌊min(H, W) / 20⌋)`; the four `m × m`
corner regions clamped to the image bounds; the arithmetic mean per
channel of the concatenation of their pixels (overlaps counted
multiply), i.e. the sum of all sampled channel values divided by the
total sample count `4·min(m,H)·min(m,W)`. -/
def estimate_background_spec (img : Img) : Fin 3 → ℚ := fun c =>
  let m := max 5 (min img.h img.w / 20)
  let rh := min m img.h
  let rw := min m img.w
  (∑ i ∈ Finset.range rh, ∑ j ∈ Finset.range rw,
      ((img.pix i j c : ℚ) + (img.pix i (img.w - m + j) c : ℚ) +
       (img.pix (img.h - m + i) j c : ℚ) +
       (img.pix (img.h - m + i) (img.w - m + j) c : ℚ)))
    / (4 * rh * rw : ℚ)

section ListLemmas

/-- Sum of a function mapped over `List.range` agrees with the `Finset.range`
sum. -/
lemma sum_map_range {M : Type} [AddCommMonoid M] (n : ℕ) (f : ℕ → M) :
    ((List.range n).map f).sum = ∑ i ∈ Finset.range n, f i := by
  induction n with
  | zero => simp
  | succ k ih =>
      rw [List.range_succ, List.map_append, List.sum_append,
        Finset.sum_range_succ, ih]
      simp

lemma regionPixels_length (img : Img) (r0 r1 c0 c1 : ℕ) :
    (regionPixels img r0 r1 c0 c1).length = (r1 - r0) * (c1 - c0) := by
  rw [regionPixels, List.length_flatten, List.map_map]
  have h : (List.length ∘ fun i =>
      List.map (fun j => img.pix (r0 + i) (c0 + j)) (List.range (c1 - c0)))
      = fun _ : ℕ => (c1 - c0) := by
    funext i; simp
  rw [h, sum_map_range]
  rw [Finset.sum_const, Finset.card_range, smul_eq_mul]

lemma regionPixels_map_sum (img : Img) (r0 r1 c0 c1 : ℕ) (c : Fin 3) :
    ((regionPixels img r0 r1 c0 c1).map fun p => (p c : ℚ)).sum
      = ∑ i ∈ Finset.range (r1 - r0), ∑ j ∈ Finset.range (c1 - c0),
          (img.pix (r0 + i) (c0 + j) c : ℚ) := by
  rw [regionPixels, List.map_flatten, List.map_map, List.sum_flatten,
    List.map_map, ← sum_map_range]
  apply congrArg List.sum
  apply List.map_congr_left
  intro i _
  simp only [Function.comp]
  rw [List.map_map, sum_map_range]
  rfl

end ListLemmas

section Estimator

lemma cornerPixels_length (img : Img) :
    (cornerPixels img).length
      = 4 * (min (margin img) img.h * min (margin img) img.w) := by
  simp only [cornerPixels, List.length_append, regionPixels_length]
  have h1 : img.h - (img.h - margin img) = min (margin img) img.h := by omega
  have h2 : img.w - (img.w - margin img) = min (margin img) img.w := by omega
  rw [h1, h2, Nat.sub_zero, Nat.sub_zero]
  ring

lemma cornerPixels_map_sum (img : Img) (c : Fin 3) :
    ((cornerPixels img).map fun p => (p c : ℚ)).sum
      = ∑ i ∈ Finset.range (min (margin img) img.h),
          ∑ j ∈ Finset.range (min (margin img) img.w),
            ((img.pix i j c : ℚ) + (img.pix i (img.w - margin img + j) c : ℚ) +
             (img.pix (img.h - margin img + i) j c : ℚ) +
             (img.pix (img.h - margin img + i) (img.w - margin img + j) c : ℚ)) := by
  have h1 : img.h - (img.h - margin img) = min (margin img) img.h := by omega
  have h2 : img.w - (img.w - margin img) = min (margin img) img.w := by omega
  simp only [cornerPixels, List.map_append, List.sum_append, regionPixels_map_sum,
    Nat.sub_zero, Nat.zero_add, h1, h2, Nat.add_zero, zero_add]
  rw [← Finset.sum_add_distrib, ← Finset.sum_add_distrib, ← Finset.sum_add_distrib]
  apply Finset.sum_congr rfl
  intro i _
  rw [← Finset.sum_add_distrib, ← Finset.sum_add_distrib, ← Finset.sum_add_distrib]

/-- C1: for every RGB image with `H, W ≥ 1`, the background estimator
computes margin `m = max(5, ⌊min(H, W)/20⌋)`, samples the four `m × m`
corner regions clamped to the image bounds (overlaps counted multiply),
and returns the per-channel arithmetic mean of exactly those sampled
pixels: the numpy translation `bg_color` agrees with the specification's
wording `estimate_background_spec`. -/
theorem C1_background_estimator (img : Img) (hh : 1 ≤ img.h) (hw : 1 ≤ img.w) :
    bg_color img = estimate_background_spec img := by
  funext c
  simp only [bg_color, estimate_background_spec]
  rw [cornerPixels_map_sum, cornerPixels_length]
  have hm : max 5 (min img.h img.w / 20) = margin img := rfl
  rw [hm]
  push_cast
  ring

/-- A concrete 1×2 image used by witnesses. -/
def imgEx : Img := ⟨1, 2, fun y x c => 10 * y + 3 * x + (c : ℕ)⟩

/-- Witness for C1 at a concrete 1×2 image. -/
theorem C1_background_estimator_witness :
    1 ≤ imgEx.h ∧ 1 ≤ imgEx.w ∧ bg_color imgEx = estimate_background_spec imgEx :=
  ⟨by decide, by decide,
    C1_background_estimator imgEx (by decide) (by decide)⟩

end Estimator

section MaskSynth

/-- C2: with threshold 30.0 the mask synthesizer marks a pixel 255 exactly
when its Euclidean RGB distance from the background color exceeds 30, and
0 otherwise; the mask has the input's height and width and all values lie
in {0, 255}. -/
theorem C2_mask_synthesizer (img : Img) (bg : Fin 3 → ℚ) :
    (compute_mask img bg 30).h = img.h ∧ (compute_mask img bg 30).w = img.w ∧
    ∀ y x,
      ((compute_mask img bg 30).val y x = 255 ↔
        (30 : ℝ) < Real.sqrt ((dist2 (img.pix y x) bg : ℚ) : ℝ)) ∧
      ((compute_mask img bg 30).val y x = 255 ∨ (compute_mask img bg 30).val y x = 0) := by
  refine ⟨rfl, rfl, fun y x => ?_⟩
  have hcast : ((30 : ℝ) ^ 2 < ((dist2 (img.pix y x) bg : ℚ) : ℝ)) ↔
      (30 : ℚ) ^ 2 < dist2 (img.pix y x) bg := by
    constructor <;> intro h <;> exact_mod_cast h
  constructor
  · rw [Real.lt_sqrt (by norm_num : (0 : ℝ) ≤ 30), hcast]
    by_cases h : (30 : ℚ) ^ 2 < dist2 (img.pix y x) bg <;> simp [compute_mask, h]
  · by_cases h : (30 : ℚ) ^ 2 < dist2 (img.pix y x) bg <;> simp [compute_mask, h]

end MaskSynth

section Uniform

/-- C6: on an image all of whose (in-range) pixels are one uniform color,
the background estimator returns exactly that color, and at any strictly
positive threshold the synthesized mask is 0 at every pixel. -/
theorem C6_uniform_image (img : Img) (c : Fin 3 → ℕ)
    (hh : 1 ≤ img.h) (hw : 1 ≤ img.w)
    (hc : ∀ y x, y < img.h → x < img.w → img.pix y x = c) :
    bg_color img = (fun ch => (c ch : ℚ)) ∧
    ∀ t : ℚ, 0 < t → ∀ y x, y < img.h → x < img.w →
      (compute_mask img (bg_color img) t).val y x = 0 := by
  have h5 : 5 ≤ margin img := le_max_left _ _
  have hrh : 1 ≤ min (margin img) img.h := by omega
  have hrw : 1 ≤ min (margin img) img.w := by omega
  have hbg : bg_color img = fun ch => (c ch : ℚ) := by
    funext ch
    simp only [bg_color]
    rw [cornerPixels_map_sum, cornerPixels_length]
    have key : ∀ i ∈ Finset.range (min (margin img) img.h),
        (∑ j ∈ Finset.range (min (margin img) img.w),
          ((img.pix i j ch : ℚ) + (img.pix i (img.w - margin img + j) ch : ℚ) +
           (img.pix (img.h - margin img + i) j ch : ℚ) +
           (img.pix (img.h - margin img + i) (img.w - margin img + j) ch : ℚ)))
        = ((min (margin img) img.w : ℕ) : ℚ) * (4 * (c ch : ℚ)) := by
      intro i hi
      rw [Finset.mem_range] at hi
      have inner : ∀ j ∈ Finset.range (min (margin img) img.w),
          ((img.pix i j ch : ℚ) + (img.pix i (img.w - margin img + j) ch : ℚ) +
           (img.pix (img.h - margin img + i) j ch : ℚ) +
           (img.pix (img.h - margin img + i) (img.w - margin img + j) ch : ℚ))
          = 4 * (c ch : ℚ) := by
        intro j hj
        rw [Finset.mem_range] at hj
        rw [hc i j (by omega) (by omega),
          hc i (img.w - margin img + j) (by omega) (by omega),
          hc (img.h - margin img + i) j (by omega) (by omega),
          hc (img.h - margin img + i) (img.w - margin img + j) (by omega) (by omega)]
        ring
      rw [Finset.sum_congr rfl inner, Finset.sum_const, Finset.card_range,
        nsmul_eq_mul]
    rw [Finset.sum_congr rfl key, Finset.sum_const, Finset.card_range, nsmul_eq_mul]
    have hpos : (0 : ℚ) < (4 * (min (margin img) img.h * min (margin img) img.w) : ℕ) := by
      have := Nat.mul_pos hrh hrw
      exact_mod_cast by omega
    rw [div_eq_iff (ne_of_gt hpos)]
    push_cast
    ring
  refine ⟨hbg, fun t ht y x hy hx => ?_⟩
  have hd : dist2 (img.pix y x) (bg_color img) = 0 := by
    rw [hbg, hc y x hy hx]
    simp [dist2]
  show (if t ^ 2 < dist2 (img.pix y x) (bg_color img) then 255 else 0) = 0
  rw [hd]
  have hnot : ¬ t ^ 2 < 0 := not_lt.mpr (by positivity)
  simp [hnot]

/-- A concrete 2×2 uniform gray image used by the C6 witness. -/
def imgUni : Img := ⟨2, 2, fun _ _ _ => 128⟩

/-- Witness for C6 at a uniform 128-gray image. -/
theorem C6_uniform_image_witness :
    1 ≤ imgUni.h ∧
    (bg_color imgUni = (fun ch => ((fun _ : Fin 3 => 128) ch : ℚ)) ∧
      ∀ t : ℚ, 0 < t → ∀ y x, y < imgUni.h → x < imgUni.w →
        (compute_mask imgUni (bg_color imgUni) t).val y x = 0) :=
  ⟨by decide,
    C6_uniform_image imgUni (fun _ => 128) (by decide) (by decide)
      (fun _ _ _ _ => rfl)⟩

end Uniform

section Compositor

/-- `mask_arr.astype('uint8')` applied inside `apply_mask_and_save`
(`app.py` line 131): C-style conversion, wrap modulo 256 (masks produced
by this pipeline already hold values below 256). -/
def mask8 (m : Mask) : Mask := ⟨m.h, m.w, fun y x => m.val y x % 256⟩

/-- One 3×3 box-blur pass with edge-replicated sampling: the output is the
floor average of the window.  ℕ subtraction clamps `y + dy - 1` below at
0 and `min · (h - 1)` clamps above, i.e. out-of-bounds taps replicate the
nearest edge pixel. -/
def boxBlur (m : Mask) : Mask :=
  ⟨m.h, m.w, fun y x =>
    (∑ dy ∈ Finset.range 3, ∑ dx ∈ Finset.range 3,
      m.val (min (y + dy - 1) (m.h - 1)) (min (x + dx - 1) (m.w - 1))) / 9⟩

/-- Modelled from the behaviour of `ImageFilter.GaussianBlur(radius=1)`
(`app.py` line 132), which PIL implements as iterated box-blur passes
with edge-replicated sampling.  The claims below rely only on it
preserving the mask's dimensions, constant masks, and upper bounds. -/
def gaussianBlur1 (m : Mask) : Mask := boxBlur (boxBlur (boxBlur m))

/-- `apply_mask_and_save` (`app.py` lines 129-134) minus the PNG encode:
convert to RGBA, blur the 8-bit mask, `putalpha`.  PIL's `putalpha`
(`ImagingPutBand`) raises `ValueError("images do not match")` when the
alpha image's size differs from the image's; that is the error case. -/
def apply_mask (img : ImgA) (m : Mask) : Except String ImgA :=
  if m.h = img.h ∧ m.w = img.w then
    .ok ⟨img.h, img.w, fun y x c =>
      if c = 3 then (gaussianBlur1 (mask8 m)).val y x else img.pix y x c⟩
  else .error "images do not match"

/-- C4: on matching dimensions the compositor only touches alpha — the
output's alpha is the Gaussian-blurred 8-bit mask, and every RGB channel
value equals the input's bit-for-bit at every pixel (including pixels
whose alpha becomes 0). -/
theorem C4_rgb_passthrough (img : ImgA) (m : Mask)
    (hh : m.h = img.h) (hw : m.w = img.w) :
    ∃ out, apply_mask img m = .ok out ∧
      (∀ y x, out.pix y x 3 = (gaussianBlur1 (mask8 m)).val y x) ∧
      ∀ y x (c : Fin 4), c ≠ 3 → out.pix y x c = img.pix y x c := by
  rw [apply_mask, if_pos ⟨hh, hw⟩]
  refine ⟨_, rfl, fun y x => ?_, fun y x c hcne => ?_⟩
  · show (if (3 : Fin 4) = 3 then (gaussianBlur1 (mask8 m)).val y x
      else img.pix y x 3) = _
    rw [if_pos rfl]
  · show (if c = 3 then (gaussianBlur1 (mask8 m)).val y x
      else img.pix y x c) = _
    rw [if_neg hcne]

/-- A concrete 1×1 RGBA image used by witnesses. -/
def imgAEx : ImgA := ⟨1, 1, fun _ _ c => 50 + (c : ℕ)⟩

/-- A concrete 1×1 mask matching `imgAEx`. -/
def maskEx : Mask := ⟨1, 1, fun _ _ => 200⟩

/-- A concrete 2×3 mask that does not match `imgAEx`. -/
def maskBad : Mask := ⟨2, 3, fun _ _ => 0⟩

/-- Witness for C4 at a 1×1 image and mask. -/
theorem C4_rgb_passthrough_witness :
    maskEx.h = imgAEx.h ∧
    ∃ out, apply_mask imgAEx maskEx = .ok out ∧
      (∀ y x, out.pix y x 3 = (gaussianBlur1 (mask8 maskEx)).val y x) ∧
      ∀ y x (c : Fin 4), c ≠ 3 → out.pix y x c = imgAEx.pix y x c :=
  ⟨by decide, C4_rgb_passthrough imgAEx maskEx (by decide) (by decide)⟩

/-- C5: a mask whose height or width differs from the image's makes the
compositor fail with the explicit shape-mismatch error (PIL's
"images do not match"); no output image is produced. -/
theorem C5_shape_mismatch (img : ImgA) (m : Mask)
    (hne : ¬ (m.h = img.h ∧ m.w = img.w)) :
    apply_mask img m = .error "images do not match" ∧
    ∀ out, apply_mask img m ≠ .ok out := by
  rw [apply_mask, if_neg hne]
  exact ⟨rfl, fun out h => by cases h⟩

/-- Witness for C5 at a 2×3 mask against a 1×1 image. -/
theorem C5_shape_mismatch_witness :
    ¬ (maskBad.h = imgAEx.h ∧ maskBad.w = imgAEx.w) ∧
    (apply_mask imgAEx maskBad = .error "images do not match" ∧
      ∀ out, apply_mask imgAEx maskBad ≠ .ok out) :=
  ⟨by decide, C5_shape_mismatch imgAEx maskBad (by decide)⟩

lemma boxBlur_const (m : Mask) (cst : ℕ) (h1 : 1 ≤ m.h) (w1 : 1 ≤ m.w)
    (hc : ∀ y x, y < m.h → x < m.w → m.val y x = cst) :
    ∀ y x, (boxBlur m).val y x = cst := by
  intro y x
  show (∑ dy ∈ Finset.range 3, ∑ dx ∈ Finset.range 3,
    m.val (min (y + dy - 1) (m.h - 1)) (min (x + dx - 1) (m.w - 1))) / 9 = cst
  have hall : ∀ dy ∈ Finset.range 3,
      (∑ dx ∈ Finset.range 3,
        m.val (min (y + dy - 1) (m.h - 1)) (min (x + dx - 1) (m.w - 1)))
      = 3 * cst := by
    intro dy _
    have hinner : ∀ dx ∈ Finset.range 3,
        m.val (min (y + dy - 1) (m.h - 1)) (min (x + dx - 1) (m.w - 1)) = cst :=
      fun dx _ => hc _ _ (by omega) (by omega)
    rw [Finset.sum_congr rfl hinner, Finset.sum_const, Finset.card_range,
      smul_eq_mul]
  rw [Finset.sum_congr rfl hall, Finset.sum_const, Finset.card_range, smul_eq_mul]
  omega

lemma gaussianBlur1_const (m : Mask) (cst : ℕ) (h1 : 1 ≤ m.h) (w1 : 1 ≤ m.w)
    (hc : ∀ y x, y < m.h → x < m.w → m.val y x = cst) :
    ∀ y x, (gaussianBlur1 m).val y x = cst := by
  have b1 := boxBlur_const m cst h1 w1 hc
  have b2 := boxBlur_const (boxBlur m) cst h1 w1 (fun y x _ _ => b1 y x)
  exact boxBlur_const (boxBlur (boxBlur m)) cst h1 w1 (fun y x _ _ => b2 y x)

/-- C9: compositing an all-255 mask of matching dimensions succeeds and
yields alpha exactly 255 at every pixel (the edge-replicated blur of a
constant mask is that constant). -/
theorem C9_all255_alpha (img : ImgA) (m : Mask)
    (hh : m.h = img.h) (hw : m.w = img.w) (h1 : 1 ≤ img.h) (w1 : 1 ≤ img.w)
    (hm : ∀ y x, y < m.h → x < m.w → m.val y x = 255) :
    ∃ out, apply_mask img m = .ok out ∧
      ∀ y x, y < img.h → x < img.w → out.pix y x 3 = 255 := by
  have hconst : ∀ y x, (gaussianBlur1 (mask8 m)).val y x = 255 := by
    apply gaussianBlur1_const (mask8 m) 255 (by show 1 ≤ m.h; omega)
      (by show 1 ≤ m.w; omega)
    intro y x hy hx
    show m.val y x % 256 = 255
    rw [hm y x hy hx]
  rw [apply_mask, if_pos ⟨hh, hw⟩]
  refine ⟨_, rfl, fun y x _ _ => ?_⟩
  show (if (3 : Fin 4) = 3 then (gaussianBlur1 (mask8 m)).val y x
    else img.pix y x 3) = 255
  rw [if_pos rfl, hconst]

/-- A concrete all-255 1×1 mask used by the C9 witness. -/
def maskAll255 : Mask := ⟨1, 1, fun _ _ => 255⟩

/-- Witness for C9 at a 1×1 image and all-255 mask. -/
theorem C9_all255_alpha_witness :
    1 ≤ imgAEx.h ∧
    ∃ out, apply_mask imgAEx maskAll255 = .ok out ∧
      ∀ y x, y < imgAEx.h → x < imgAEx.w → out.pix y x 3 = 255 :=
  ⟨by decide,
    C9_all255_alpha imgAEx maskAll255 (by decide) (by decide) (by decide)
      (by decide) (fun _ _ _ _ => rfl)⟩

end Compositor

section ModelHook

/-- The effect of numpy `astype('uint8')` on one integer value: C-style
conversion, i.e. wrap modulo 256 (never clamping).  A float value is
first truncated toward zero; `v` here is that already-truncated integer. -/
def castUint8 (v : ℤ) : ℕ := (v % 256).toNat

/-- A model's `predict` output as `np.asarray` sees it (`app.py` line 190):
a 2-D `(h, w)` array or a 3-D `(h, w, channels)` array of integer values. -/
inductive Pred where
  | two (h w : ℕ) (val : ℕ → ℕ → ℤ)
  | three (h w channels : ℕ) (val : ℕ → ℕ → ℕ → ℤ)

/-- `mask = np.asarray(pred).astype('uint8'); if mask.ndim == 3:
mask = mask[..., 0]` — `app.py` lines 190-192. -/
def maskOfPred : Pred → Mask
  | .two h w v => ⟨h, w, fun y x => castUint8 (v y x)⟩
  | .three h w _ v => ⟨h, w, fun y x => castUint8 (v y x 0)⟩

/-- Outcome of the `try` block of `process_local` (`app.py` lines 182-196):
either every step up to `predict` succeeded, or some step raised
(`load_pickle_model` failed, the loaded object has no `predict`, or
`predict` itself raised). -/
inductive ModelStep where
  | loadFail
  | noPredictMethod
  | predictFail
  | predicted (p : Pred)

/-- The RGB view `np.array(pil.convert('RGB'))` of an RGBA image
(`app.py` line 187): drop the alpha channel. -/
def toRGB (img : ImgA) : Img := ⟨img.h, img.w, fun y x c => img.pix y x c.castSucc⟩

/-- The mask chosen by `process_local` (`app.py` lines 182-196): the
model's prediction if every step succeeded; otherwise the bare
`except Exception` catches the raise and substitutes `fallback_mask(pil)`. -/
def local_mask (img : ImgA) (step : ModelStep) : Mask :=
  match step with
  | .predicted p => maskOfPred p
  | _ => fallback_mask (toRGB img)

/-- C3: every model load/inference failure — a missing or unreadable
pickle, an object without `predict`, or a raising `predict` — silently
selects the heuristic `fallback_mask`, whose dimensions are the image's,
so the subsequent compositing succeeds; no such failure escapes as an
error (`local_mask` is total). -/
theorem C3_silent_fallback (img : ImgA) (step : ModelStep)
    (hfail : ∀ p, step ≠ ModelStep.predicted p) :
    local_mask img step = fallback_mask (toRGB img) ∧
    (local_mask img step).h = img.h ∧ (local_mask img step).w = img.w ∧
    ∃ out, apply_mask img (local_mask img step) = .ok out := by
  have hsel : local_mask img step = fallback_mask (toRGB img) := by
    cases step with
    | predicted p => exact absurd rfl (hfail p)
    | loadFail => rfl
    | noPredictMethod => rfl
    | predictFail => rfl
  refine ⟨hsel, ?_, ?_, ?_⟩
  · rw [hsel]; rfl
  · rw [hsel]; rfl
  · rw [hsel, apply_mask, if_pos ⟨rfl, rfl⟩]; exact ⟨_, rfl⟩

/-- Witness for C3: an object without `predict` on the 1×1 image. -/
theorem C3_silent_fallback_witness :
    local_mask imgAEx ModelStep.noPredictMethod
        = fallback_mask (toRGB imgAEx) ∧
    (local_mask imgAEx ModelStep.noPredictMethod).h = imgAEx.h ∧
    (local_mask imgAEx ModelStep.noPredictMethod).w = imgAEx.w ∧
    ∃ out, apply_mask imgAEx (local_mask imgAEx ModelStep.noPredictMethod)
        = .ok out :=
  C3_silent_fallback imgAEx ModelStep.noPredictMethod (by intro p h; cases h)

/-- C7: a 3-D `predict` output is used only through its first channel:
two 3-D outputs agreeing on channel 0 yield the same mask, and the mask
equals the one computed from the channel-0 slice alone. -/
theorem C7_first_channel_only (h w n1 n2 : ℕ) (v1 v2 : ℕ → ℕ → ℕ → ℤ)
    (hagree : ∀ y x, v1 y x 0 = v2 y x 0) :
    maskOfPred (Pred.three h w n1 v1) = maskOfPred (Pred.three h w n2 v2) ∧
    maskOfPred (Pred.three h w n1 v1)
      = maskOfPred (Pred.two h w (fun y x => v1 y x 0)) := by
  constructor
  · show Mask.mk h w (fun y x => castUint8 (v1 y x 0))
      = Mask.mk h w (fun y x => castUint8 (v2 y x 0))
    congr 1
    funext y x
    rw [hagree]
  · rfl

/-- Witness for C7: two 3-D outputs sharing channel 0. -/
theorem C7_first_channel_only_witness :
    (∀ y x : ℕ, ((fun _ _ ch : ℕ => (ch : ℤ)) y x 0)
        = ((fun _ _ ch : ℕ => (2 * ch : ℤ)) y x 0)) ∧
    (maskOfPred (Pred.three 1 1 3 (fun _ _ ch => (ch : ℤ)))
        = maskOfPred (Pred.three 1 1 2 (fun _ _ ch => (2 * ch : ℤ))) ∧
      maskOfPred (Pred.three 1 1 3 (fun _ _ ch => (ch : ℤ)))
        = maskOfPred (Pred.two 1 1 (fun _ _ => ((0 : ℕ) : ℤ)))) :=
  ⟨fun _ _ => by simp,
    C7_first_channel_only 1 1 3 2 (fun _ _ ch => (ch : ℤ))
      (fun _ _ ch => (2 * ch : ℤ)) (fun _ _ => by simp)⟩

lemma boxBlur_le_one (m : Mask) (hm : ∀ y x, m.val y x ≤ 1) :
    ∀ y x, (boxBlur m).val y x ≤ 1 := by
  intro y x
  show (∑ dy ∈ Finset.range 3, ∑ dx ∈ Finset.range 3,
    m.val (min (y + dy - 1) (m.h - 1)) (min (x + dx - 1) (m.w - 1))) / 9 ≤ 1
  have hsum : (∑ dy ∈ Finset.range 3, ∑ dx ∈ Finset.range 3,
      m.val (min (y + dy - 1) (m.h - 1)) (min (x + dx - 1) (m.w - 1))) ≤ 9 := by
    calc (∑ dy ∈ Finset.range 3, ∑ dx ∈ Finset.range 3,
        m.val (min (y + dy - 1) (m.h - 1)) (min (x + dx - 1) (m.w - 1)))
        ≤ ∑ _dy ∈ Finset.range 3, ∑ _dx ∈ Finset.range 3, 1 :=
          Finset.sum_le_sum fun dy _ => Finset.sum_le_sum fun dx _ => hm _ _
      _ = 9 := by simp
  omega

/-- C10: the 8-bit cast applied to a model's output before compositing
wraps modulo 256 (after truncation toward zero) instead of clamping:
`castUint8` is reduction mod 256 on nonnegative values, sends 300 to 44
and -1 to 255 (not to 255 and 0 as clamping would), and a model returning
a {0, 1}-valued mask composites to alpha values 0 and 1 — never 255. -/
theorem C10_uint8_wraps_not_clamps (img : ImgA) (h w : ℕ) (v : ℕ → ℕ → ℤ)
    (hv : ∀ y x, v y x = 0 ∨ v y x = 1)
    (hh : h = img.h) (hw : w = img.w) (h1 : 1 ≤ img.h) (w1 : 1 ≤ img.w) :
    castUint8 300 = 44 ∧ castUint8 (-1) = 255 ∧
    (∀ u : ℤ, 0 ≤ u → castUint8 u = u.toNat % 256) ∧
    ∃ out, apply_mask img (maskOfPred (Pred.two h w v)) = .ok out ∧
      ∀ y x, y < img.h → x < img.w →
        (out.pix y x 3 = 0 ∨ out.pix y x 3 = 1) := by
  refine ⟨by decide, by decide, fun u hu => by unfold castUint8; omega, ?_⟩
  have hm8 : ∀ y x, (mask8 (maskOfPred (Pred.two h w v))).val y x ≤ 1 := by
    intro y x
    show castUint8 (v y x) % 256 ≤ 1
    rcases hv y x with h0 | h0 <;> rw [h0] <;> decide
  have hb1 := boxBlur_le_one _ hm8
  have hb2 := boxBlur_le_one _ hb1
  have hb3 : ∀ y x,
      (gaussianBlur1 (mask8 (maskOfPred (Pred.two h w v)))).val y x ≤ 1 :=
    boxBlur_le_one _ hb2
  rw [apply_mask, if_pos ⟨hh, hw⟩]
  refine ⟨_, rfl, fun y x _ _ => ?_⟩
  show (if (3 : Fin 4) = 3
      then (gaussianBlur1 (mask8 (maskOfPred (Pred.two h w v)))).val y x
      else img.pix y x 3) = 0 ∨
    (if (3 : Fin 4) = 3
      then (gaussianBlur1 (mask8 (maskOfPred (Pred.two h w v)))).val y x
      else img.pix y x 3) = 1
  rw [if_pos rfl]
  have := hb3 y x
  omega

/-- Witness for C10: a model emitting the constant mask 1 on the 1×1
image. -/
theorem C10_uint8_wraps_not_clamps_witness :
    (∀ y x : ℕ, ((fun _ _ : ℕ => (1 : ℤ)) y x = 0
        ∨ (fun _ _ : ℕ => (1 : ℤ)) y x = 1)) ∧
    (castUint8 300 = 44 ∧ castUint8 (-1) = 255 ∧
      (∀ u : ℤ, 0 ≤ u → castUint8 u = u.toNat % 256) ∧
      ∃ out, apply_mask imgAEx
          (maskOfPred (Pred.two 1 1 (fun _ _ => (1 : ℤ)))) = .ok out ∧
        ∀ y x, y < imgAEx.h → x < imgAEx.w →
          (out.pix y x 3 = 0 ∨ out.pix y x 3 = 1)) :=
  ⟨fun _ _ => Or.inr rfl,
    C10_uint8_wraps_not_clamps imgAEx 1 1 (fun _ _ => (1 : ℤ))
      (fun _ _ => Or.inr rfl) (by decide) (by decide) (by decide) (by decide)⟩

end ModelHook

section Determinism

/-- C8: the mask computation is deterministic — it is a pure function of
the image, background color and threshold, so two runs on identical
inputs produce bit-identical masks (there is no randomness in
`fallback_mask`). -/
theorem C8_deterministic (img1 img2 : Img) (bg1 bg2 : Fin 3 → ℚ) (t1 t2 : ℚ)
    (himg : img1 = img2) (hbg : bg1 = bg2) (ht : t1 = t2) :
    compute_mask img1 bg1 t1 = compute_mask img2 bg2 t2 ∧
    fallback_mask img1 = fallback_mask img2 := by
  subst himg; subst hbg; subst ht
  exact ⟨rfl, rfl⟩

/-- Witness for C8 at the concrete 1×2 image. -/
theorem C8_deterministic_witness :
    imgEx = imgEx ∧
    (compute_mask imgEx (bg_color imgEx) 30
        = compute_mask imgEx (bg_color imgEx) 30 ∧
      fallback_mask imgEx = fallback_mask imgEx) :=
  ⟨rfl, C8_deterministic imgEx imgEx (bg_color imgEx) (bg_color imgEx) 30 30
    rfl rfl rfl⟩

end Determinism

end BgRemove
